import Mathlib

/-!
Verification of the tableau simplex engine of SimplexCalculator.

The engine lives in the class `SimplexSolve` of `solve.py`:
`create_matrices` builds the initial tableau from the coefficient table
delivered by `SimplexSetup.get_fields`, `solve` runs the simplex loop,
`find_pivot` selects the pivot, and `next_step` / `prev_step` /
`first_step` / `last_step` navigate the list `soln_matrices` of solution
steps through the cursor `soln_index`.

Numbers are modelled as exact rationals.  Python builtins used by the code
(`min`, `list.index`, `list.insert(-1, v)`) are embedded as `pyMin`,
`pyIndex` and `pyInsertLast`.  The solve loop of `solve.py` is a while
loop with no a-priori termination bound, so it is embedded with explicit
fuel; running out of fuel is a separate observable outcome.  The two
failure modes of `find_pivot` (Python would raise from `min` applied to an
empty sequence) are embedded as `Option`/`SolveResult.unbounded`.
-/

unseal Rat.add Rat.sub Rat.mul Rat.inv Rat.ofScientific

namespace SimplexSolve

/-- A tableau (or a raw coefficient table): a list of rows of rationals. -/
abbrev Mat := List (List ℚ)

/-- Python `min` over a list, `none` on the empty list (Python raises). -/
def pyMin : List ℚ → Option ℚ
  | [] => none
  | x :: xs => some (xs.foldl min x)

/-- Python `list.index`: index of the first occurrence of `a`. -/
def pyIndex {α : Type} [DecidableEq α] : List α → α → ℕ
  | [], _ => 0
  | x :: xs, a => if x = a then 0 else pyIndex xs a + 1

/-- Python `list.insert(-1, v)`: insert `v` right before the last element
(appends to an empty list). -/
def pyInsertLast : List ℚ → ℚ → List ℚ
  | [], v => [v]
  | [z], v => [v, z]
  | x :: y :: xs, v => x :: pyInsertLast (y :: xs) v

/-- The helper `is_negative` of `SimplexSolve.solve` (solve.py line 44):
true when some entry of the given row is negative. -/
def is_negative (matrix_row : List ℚ) : Bool :=
  matrix_row.any (fun val => val < 0)

/-- The pivot column computed at solve.py line 95:
`matrix[-1].index(min(matrix[-1]))`, the leftmost minimum of the whole
bottom row (the RHS entry included). -/
def pivotColOf (bottom_row : List ℚ) : ℕ :=
  match pyMin bottom_row with
  | none => 0
  | some m => pyIndex bottom_row m

/-- The list built at solve.py line 98: for every row above the bottom one,
`x[-1] / x[pivot_col]` when `x[pivot_col] > 0`, else `None`. -/
def divided_col (matrix : Mat) (pivot_col : ℕ) : List (Option ℚ) :=
  matrix.dropLast.map (fun x =>
    if 0 < x.getD pivot_col 0 then some (x.getLastD 0 / x.getD pivot_col 0) else none)

/-- `SimplexSolve.find_pivot` (solve.py lines 79-101).  Returns
`(pivot_row, pivot_col, pivot_val)`; `none` embeds the `ValueError` Python
raises when `min` is applied to an empty sequence (bottom row empty, or no
row has a positive entry in the pivot column). -/
def find_pivot (matrix : Mat) : Option (ℕ × ℕ × ℚ) := do
  let _ ← pyMin (matrix.getLastD [])
  let pivot_col := pivotColOf (matrix.getLastD [])
  let dcol := divided_col matrix pivot_col
  let mr ← pyMin (dcol.filterMap id)
  let pivot_row := pyIndex dcol (some mr)
  return (pivot_row, pivot_col, (matrix.getD pivot_row []).getD pivot_col 0)

/-- The inner row update of `SimplexSolve.solve` (solve.py lines 67-70):
`row_vector[i] += (-1) * val * matrix[pivot_row][i]` for every `i`. -/
def updateRow (row_vector new_pivot_row : List ℚ) (val : ℚ) : List ℚ :=
  (List.range row_vector.length).map (fun i =>
    row_vector.getD i 0 + (-1) * val * new_pivot_row.getD i 0)

/-- One pivot step of `SimplexSolve.solve` (solve.py lines 58-70): divide
the pivot row by the pivot value, then row-reduce every other row against
the new pivot row. -/
def row_reduce (matrix : Mat) (pivot_row pivot_col : ℕ) (pivot : ℚ) : Mat :=
  let new_pivot_row := (matrix.getD pivot_row []).map (fun x => x / pivot)
  (List.range matrix.length).map (fun r =>
    if r = pivot_row then new_pivot_row
    else updateRow (matrix.getD r []) new_pivot_row ((matrix.getD r []).getD pivot_col 0))

/-- Outcome of the solve loop: normal termination (bottom row free of
negatives), the unbounded failure, or fuel exhaustion.  Each carries the
accumulated step history `soln_matrices`. -/
inductive SolveResult where
  | ok (hist : List Mat)
  | unbounded (hist : List Mat)
  | outOfFuel (hist : List Mat)
deriving DecidableEq, Repr

/-- The step history carried by a `SolveResult`. -/
def SolveResult.history : SolveResult → List Mat
  | SolveResult.ok h => h
  | SolveResult.unbounded h => h
  | SolveResult.outOfFuel h => h

/-- The while loop of `SimplexSolve.solve` (solve.py lines 57-74), with
explicit fuel: while the bottom row has a negative entry, pivot and append
the resulting tableau to the history. -/
def solveLoop : ℕ → Mat → List Mat → SolveResult
  | 0, _, hist => SolveResult.outOfFuel hist
  | fuel + 1, matrix, hist =>
    if is_negative (matrix.getLastD []) then
      match find_pivot matrix with
      | none => SolveResult.unbounded hist
      | some (pr, pc, pivot) =>
        let m2 := row_reduce matrix pr pc pivot
        solveLoop fuel m2 (hist ++ [m2])
    else SolveResult.ok hist

/-- The per-row construction of `SimplexSolve.create_matrices`
(solve.py lines 179-190): copy the row (negating it when it is the
objective row, i.e. the last row), then insert one slack value per input
row immediately before the RHS entry — `1` for the row's own slot, `0`
elsewhere.  (The Python int-cast of integral floats at line 183 is
value-preserving and has no rational counterpart.) -/
def create_row (val_matrix : Mat) (row : ℕ) : List ℚ :=
  let base := (val_matrix.getD row []).map
    (fun val => if row + 1 = val_matrix.length then val * (-1) else val)
  (List.range val_matrix.length).foldl
    (fun acc i => pyInsertLast acc (if i = row then 1 else 0)) base

/-- `SimplexSolve.create_matrices` (solve.py lines 174-191): the initial
tableau built from the coefficient table `val_matrix`. -/
def create_matrices (val_matrix : Mat) : Mat :=
  (List.range val_matrix.length).map (fun row => create_row val_matrix row)

/-- The whole numeric run of `SimplexSolve.__init__`: build the initial
tableau, seed the history with it, and run the solve loop. -/
def simplex_solve (fuel : ℕ) (val_matrix : Mat) : SolveResult :=
  solveLoop fuel (create_matrices val_matrix) [create_matrices val_matrix]

/-- The navigator state: the solved history `soln_matrices` and the display
cursor `soln_index` (solve.py lines 32-33). -/
structure SolveState where
  soln_matrices : List Mat
  soln_index : ℕ

/-- `SimplexSolve.next_step` (solve.py lines 123-131): increment the cursor
unless it is already at the last index. -/
def next_step (s : SolveState) : SolveState :=
  if s.soln_index + 1 < s.soln_matrices.length then
    { s with soln_index := s.soln_index + 1 }
  else s

/-- `SimplexSolve.prev_step` (solve.py lines 133-141): decrement the cursor
unless it is already at zero. -/
def prev_step (s : SolveState) : SolveState :=
  if 0 < s.soln_index then { s with soln_index := s.soln_index - 1 } else s

/-- `SimplexSolve.first_step` (solve.py lines 143-147). -/
def first_step (s : SolveState) : SolveState :=
  { s with soln_index := 0 }

/-- `SimplexSolve.last_step` (solve.py lines 149-153). -/
def last_step (s : SolveState) : SolveState :=
  { s with soln_index := s.soln_matrices.length - 1 }

/-- Description of the initial tableau taken from the words of the spec
(section 4.1 step 3 and claim C4), for one row `i` of a table with `nvars`
decision variables and `ncons` constraints: the (objective-negated)
variable coefficients, then `ncons + 1` inserted columns holding `1`
exactly in slot `i` (slack slots for constraint rows, the final
objective-tracking slot for the objective row `i = ncons`), then the RHS. -/
def specRow (T : Mat) (nvars ncons i : ℕ) : List ℚ :=
  ((T.getD i []).take nvars).map (fun v => if i = ncons then -v else v) ++
    (List.range (ncons + 1)).map (fun j => if j = i then (1 : ℚ) else 0) ++
    [if i = ncons then -((T.getD i []).getD nvars 0) else (T.getD i []).getD nvars 0]

/-- Description of the whole initial tableau taken from the words of the
spec: one `specRow` per input row. -/
def specInitialTableau (T : Mat) (nvars ncons : ℕ) : Mat :=
  (List.range (ncons + 1)).map (fun i => specRow T nvars ncons i)

/-- Structural malformedness of a coefficient table in the sense of claim
C7: some pair of rows differs in length, or there are no constraints
(fewer than two rows), or no variables (fewer than two columns). -/
def malformedTable (T : Mat) : Bool :=
  decide (∃ r1 ∈ T, ∃ r2 ∈ T, r1.length ≠ r2.length) ||
    T.length < 2 || (T.getD 0 []).length < 2

/-! Facts about the embedded Python builtins. -/

theorem foldl_min_le_init (xs : List ℚ) (x : ℚ) : xs.foldl min x ≤ x := by
  induction xs generalizing x with
  | nil => exact le_refl x
  | cons y ys ih =>
    exact le_trans (ih (min x y)) (min_le_left x y)

theorem foldl_min_le_mem (xs : List ℚ) (x : ℚ) : ∀ y ∈ xs, xs.foldl min x ≤ y := by
  induction xs generalizing x with
  | nil => intro y hy; cases hy
  | cons z zs ih =>
    intro y hy
    rcases List.mem_cons.mp hy with h1 | h1
    · subst h1
      exact le_trans (foldl_min_le_init zs (min x y)) (min_le_right x y)
    · exact ih (min x z) y h1

theorem foldl_min_mem (xs : List ℚ) (x : ℚ) :
    xs.foldl min x = x ∨ xs.foldl min x ∈ xs := by
  induction xs generalizing x with
  | nil => exact Or.inl rfl
  | cons y ys ih =>
    simp only [List.foldl_cons]
    rcases ih (min x y) with h1 | h1
    · rcases le_total x y with h2 | h2
      · exact Or.inl (by rw [h1, min_eq_left h2])
      · exact Or.inr (List.mem_cons.mpr (Or.inl (by rw [h1, min_eq_right h2])))
    · exact Or.inr (List.mem_cons.mpr (Or.inr h1))

theorem pyMin_mem {l : List ℚ} {m : ℚ} (h : pyMin l = some m) : m ∈ l := by
  cases l with
  | nil => cases h
  | cons x xs =>
    have h2 : xs.foldl min x = m := Option.some.inj h
    rcases foldl_min_mem xs x with h3 | h3
    · exact List.mem_cons.mpr (Or.inl (h2.symm.trans h3))
    · exact List.mem_cons.mpr (Or.inr (h2 ▸ h3))

theorem pyMin_le {l : List ℚ} {m : ℚ} (h : pyMin l = some m) : ∀ x ∈ l, m ≤ x := by
  cases l with
  | nil => cases h
  | cons x xs =>
    have h2 : xs.foldl min x = m := Option.some.inj h
    intro y hy
    rcases List.mem_cons.mp hy with h3 | h3
    · exact h2 ▸ h3 ▸ foldl_min_le_init xs x
    · exact h2 ▸ foldl_min_le_mem xs x y h3

theorem pyMin_eq_none_iff {l : List ℚ} : pyMin l = none ↔ l = [] := by
  cases l with
  | nil => simp [pyMin]
  | cons x xs => simp [pyMin]

theorem pyIndex_lt_length {α : Type} [DecidableEq α] {l : List α} {a : α}
    (h : a ∈ l) : pyIndex l a < l.length := by
  induction l with
  | nil => cases h
  | cons x xs ih =>
    by_cases hx : x = a
    · simp [pyIndex, hx]
    · have h1 : a ∈ xs := by
        rcases List.mem_cons.mp h with h2 | h2
        · exact absurd h2.symm hx
        · exact h2
      simpa [pyIndex, hx] using ih h1

theorem getD_pyIndex {α : Type} [DecidableEq α] {l : List α} {a : α}
    (h : a ∈ l) (d : α) : l.getD (pyIndex l a) d = a := by
  induction l with
  | nil => cases h
  | cons x xs ih =>
    by_cases hx : x = a
    · simp [pyIndex, hx]
    · have h1 : a ∈ xs := by
        rcases List.mem_cons.mp h with h2 | h2
        · exact absurd h2.symm hx
        · exact h2
      simpa [pyIndex, hx] using ih h1

theorem getD_lt_pyIndex {α : Type} [DecidableEq α] {l : List α} {a : α} (d : α) :
    ∀ j, j < pyIndex l a → l.getD j d ≠ a := by
  induction l with
  | nil => intro j hj; simp [pyIndex] at hj
  | cons x xs ih =>
    intro j hj
    by_cases hx : x = a
    · simp [pyIndex, hx] at hj
    · simp only [pyIndex, if_neg hx] at hj
      cases j with
      | zero => simpa using hx
      | succ j =>
        simp only [List.getD_cons_succ]
        exact ih j (Nat.lt_of_succ_lt_succ hj)

theorem pyInsertLast_length (l : List ℚ) (v : ℚ) :
    (pyInsertLast l v).length = l.length + 1 := by
  induction l with
  | nil => rfl
  | cons x xs ih =>
    cases xs with
    | nil => rfl
    | cons y ys => simpa [pyInsertLast] using ih

theorem pyInsertLast_concat (a : List ℚ) (z v : ℚ) :
    pyInsertLast (a ++ [z]) v = (a ++ [v]) ++ [z] := by
  induction a with
  | nil => rfl
  | cons x xs ih =>
    cases hxs : xs ++ [z] with
    | nil => exact absurd hxs (by simp)
    | cons y ys =>
      simp only [List.cons_append, hxs, pyInsertLast]
      rw [← hxs, ih]

theorem foldl_pyInsertLast (g : ℕ → ℚ) :
    ∀ (js : List ℕ) (a : List ℚ) (z : ℚ),
      js.foldl (fun acc i => pyInsertLast acc (g i)) (a ++ [z]) =
        a ++ js.map g ++ [z] := by
  intro js
  induction js with
  | nil => intro a z; simp
  | cons j js ih =>
    intro a z
    simp only [List.foldl_cons, List.map_cons]
    rw [pyInsertLast_concat a z (g j), ih (a ++ [g j]) z]
    simp

/-! Generic list access facts used below. -/

theorem getD_map_of_lt {α β : Type} (f : α → β) (l : List α) {i : ℕ}
    (h : i < l.length) (d : β) (d0 : α) :
    (l.map f).getD i d = f (l.getD i d0) := by
  rw [List.getD_eq_getElem (l.map f) d (by simpa using h),
    List.getElem_map, List.getD_eq_getElem l d0 h]

theorem getD_range_map {β : Type} (g : ℕ → β) {n i : ℕ} (h : i < n) (d : β) :
    ((List.range n).map g).getD i d = g i := by
  rw [List.getD_eq_getElem _ _ (by simpa using h), List.getElem_map,
    List.getElem_range]

theorem getD_dropLast {l : Mat} {i : ℕ} (h : i < l.dropLast.length) :
    l.dropLast.getD i [] = l.getD i [] := by
  rw [List.getD_eq_getElem _ _ h,
    List.getD_eq_getElem _ _ (by simp at h ⊢; omega), List.getElem_dropLast]

theorem getD_mem {α : Type} {l : List α} {i : ℕ} (h : i < l.length) (d : α) :
    l.getD i d ∈ l := by
  rw [List.getD_eq_getElem l d h]
  exact List.getElem_mem h

theorem eq_take_append_getD {l : List ℚ} {n : ℕ} (h : l.length = n + 1) :
    l = l.take n ++ [l.getD n 0] := by
  conv_lhs => rw [← List.take_append_drop n l]
  congr 1
  rw [List.drop_eq_getElem_cons (by omega), List.drop_eq_nil_of_le (by omega),
    List.getD_eq_getElem l 0 (by omega)]

/-! Characterization of `find_pivot`. -/

theorem find_pivot_inv {matrix : Mat} {pr pc : ℕ} {pv : ℚ}
    (h : find_pivot matrix = some (pr, pc, pv)) :
    ∃ mr, pyMin ((divided_col matrix (pivotColOf (matrix.getLastD []))).filterMap id) =
        some mr ∧
      pc = pivotColOf (matrix.getLastD []) ∧
      pr = pyIndex (divided_col matrix pc) (some mr) ∧
      pv = (matrix.getD pr []).getD pc 0 := by
  simp only [find_pivot, bind, pure, Option.bind_eq_some, Option.some.injEq,
    Prod.mk.injEq] at h
  obtain ⟨m0, hm0, mr, hmr, hpr, hpc, hpv⟩ := h
  subst hpc
  refine ⟨mr, hmr, rfl, hpr.symm, ?_⟩
  rw [hpr] at hpv
  exact hpv.symm

/-- Everything `find_pivot` guarantees about a returned pivot descriptor:
the pivot row is a constraint row (the bottom row is excluded), its
pivot-column entry is strictly positive and is the returned pivot value,
its ratio `RHS / entry` is minimal among the constraint rows with strictly
positive pivot-column entry, and every such row of smaller index has a
strictly larger ratio. -/
theorem find_pivot_spec {matrix : Mat} {pr pc : ℕ} {pv : ℚ}
    (h : find_pivot matrix = some (pr, pc, pv)) :
    pr < matrix.dropLast.length ∧
    0 < (matrix.dropLast.getD pr []).getD pc 0 ∧
    pv = (matrix.dropLast.getD pr []).getD pc 0 ∧
    (∀ r, r < matrix.dropLast.length → 0 < (matrix.dropLast.getD r []).getD pc 0 →
      (matrix.dropLast.getD pr []).getLastD 0 / (matrix.dropLast.getD pr []).getD pc 0 ≤
        (matrix.dropLast.getD r []).getLastD 0 / (matrix.dropLast.getD r []).getD pc 0) ∧
    (∀ r, r < pr → 0 < (matrix.dropLast.getD r []).getD pc 0 →
      (matrix.dropLast.getD pr []).getLastD 0 / (matrix.dropLast.getD pr []).getD pc 0 <
        (matrix.dropLast.getD r []).getLastD 0 / (matrix.dropLast.getD r []).getD pc 0) := by
  obtain ⟨mr, hmr, hpc, hpr, hpv⟩ := find_pivot_inv h
  subst hpc
  set pc := pivotColOf (matrix.getLastD []) with hpcdef
  set dcol := divided_col matrix pc with hdcol
  have hmem : some mr ∈ dcol := by
    have h1 : mr ∈ dcol.filterMap id := pyMin_mem hmr
    obtain ⟨a, ha, haeq⟩ := List.mem_filterMap.mp h1
    exact haeq ▸ ha
  have hlen : dcol.length = matrix.dropLast.length := by
    rw [hdcol]; simp [divided_col]
  have hprlt : pr < matrix.dropLast.length := by
    rw [← hlen, hpr]; exact pyIndex_lt_length hmem
  have hdc_at : ∀ r, r < matrix.dropLast.length → dcol.getD r none =
      if 0 < (matrix.dropLast.getD r []).getD pc 0 then
        some ((matrix.dropLast.getD r []).getLastD 0 /
          (matrix.dropLast.getD r []).getD pc 0)
      else none := by
    intro r hr
    rw [hdcol]
    exact getD_map_of_lt _ _ hr none []
  have hdc_pr : dcol.getD pr none = some mr := by
    rw [hpr]; exact getD_pyIndex hmem none
  have hpos : 0 < (matrix.dropLast.getD pr []).getD pc 0 := by
    by_contra hneg
    rw [hdc_at pr hprlt, if_neg hneg] at hdc_pr
    cases hdc_pr
  have hratio_pr : (matrix.dropLast.getD pr []).getLastD 0 /
      (matrix.dropLast.getD pr []).getD pc 0 = mr := by
    have h1 := hdc_pr
    rw [hdc_at pr hprlt, if_pos hpos] at h1
    exact Option.some.inj h1
  have hmin : ∀ r, r < matrix.dropLast.length →
      0 < (matrix.dropLast.getD r []).getD pc 0 →
      mr ≤ (matrix.dropLast.getD r []).getLastD 0 /
        (matrix.dropLast.getD r []).getD pc 0 := by
    intro r hr hposr
    have h1 : dcol.getD r none = some ((matrix.dropLast.getD r []).getLastD 0 /
        (matrix.dropLast.getD r []).getD pc 0) := by
      rw [hdc_at r hr, if_pos hposr]
    have h2 : some ((matrix.dropLast.getD r []).getLastD 0 /
        (matrix.dropLast.getD r []).getD pc 0) ∈ dcol := by
      rw [← h1]; exact getD_mem (by omega) none
    have h3 : (matrix.dropLast.getD r []).getLastD 0 /
        (matrix.dropLast.getD r []).getD pc 0 ∈ dcol.filterMap id :=
      List.mem_filterMap.mpr ⟨_, h2, rfl⟩
    exact pyMin_le hmr _ h3
  have hpv2 : pv = (matrix.dropLast.getD pr []).getD pc 0 := by
    rw [hpv, getD_dropLast hprlt]
  refine ⟨hprlt, hpos, hpv2, ?_, ?_⟩
  · intro r hr hposr
    rw [hratio_pr]
    exact hmin r hr hposr
  · intro r hrlt hposr
    have hr : r < matrix.dropLast.length := lt_trans hrlt hprlt
    have hne : dcol.getD r none ≠ some mr := by
      apply getD_lt_pyIndex
      rw [← hpr]; exact hrlt
    have h1 : dcol.getD r none = some ((matrix.dropLast.getD r []).getLastD 0 /
        (matrix.dropLast.getD r []).getD pc 0) := by
      rw [hdc_at r hr, if_pos hposr]
    have hne2 : (matrix.dropLast.getD r []).getLastD 0 /
        (matrix.dropLast.getD r []).getD pc 0 ≠ mr := by
      intro heq
      exact hne (by rw [h1, heq])
    rw [hratio_pr]
    exact lt_of_le_of_ne (hmin r hr hposr) (Ne.symm hne2)

/-! Facts about the solve loop. -/

theorem solveLoop_succ (fuel : ℕ) (matrix : Mat) (hist : List Mat) :
    solveLoop (fuel + 1) matrix hist =
      if is_negative (matrix.getLastD []) then
        match find_pivot matrix with
        | none => SolveResult.unbounded hist
        | some (pr, pc, pivot) =>
          solveLoop fuel (row_reduce matrix pr pc pivot)
            (hist ++ [row_reduce matrix pr pc pivot])
      else SolveResult.ok hist := rfl

/-- The solve loop only ever appends to the already-accumulated history. -/
theorem solveLoop_extends (fuel : ℕ) :
    ∀ (matrix : Mat) (hist : List Mat),
      ∃ t, (solveLoop fuel matrix hist).history = hist ++ t := by
  induction fuel with
  | zero => intro matrix hist; exact ⟨[], by simp [solveLoop, SolveResult.history]⟩
  | succ fuel ih =>
    intro matrix hist
    rw [solveLoop_succ]
    by_cases hneg : is_negative (matrix.getLastD [])
    · rw [if_pos hneg]
      cases hfp : find_pivot matrix with
      | none => exact ⟨[], by simp [SolveResult.history]⟩
      | some p =>
        obtain ⟨pr, pc, pv⟩ := p
        obtain ⟨t, ht⟩ := ih (row_reduce matrix pr pc pv)
          (hist ++ [row_reduce matrix pr pc pv])
        exact ⟨[row_reduce matrix pr pc pv] ++ t, by rw [ht]; simp⟩
    · rw [if_neg hneg]
      exact ⟨[], by simp [SolveResult.history]⟩

/-! Claim theorems. -/

/-- C2: when the bottom row still has a negative entry but no constraint
row has a strictly positive entry in the pivot column, the next solver
iteration signals the unbounded failure and stops, returning exactly the
history accumulated so far. -/
theorem c2_unbounded_stops {matrix : Mat} (hist : List Mat) (fuel : ℕ)
    (hneg : is_negative (matrix.getLastD []) = true)
    (hnopos : ∀ r, r < matrix.dropLast.length →
      (matrix.dropLast.getD r []).getD (pivotColOf (matrix.getLastD [])) 0 ≤ 0) :
    solveLoop (fuel + 1) matrix hist = SolveResult.unbounded hist := by
  have hfp : find_pivot matrix = none := by
    have hdc : (divided_col matrix (pivotColOf (matrix.getLastD []))).filterMap id =
        [] := by
      rw [List.filterMap_eq_nil_iff]
      intro a ha
      simp only [divided_col, List.mem_map] at ha
      obtain ⟨x, hx, hfx⟩ := ha
      obtain ⟨r, hr, hxr⟩ := List.mem_iff_getElem.mp hx
      have hx0 : x.getD (pivotColOf (matrix.getLastD [])) 0 ≤ 0 := by
        have h1 := hnopos r hr
        rw [List.getD_eq_getElem _ _ hr, hxr] at h1
        exact h1
      rw [← hfx, if_neg (not_lt.mpr hx0)]
      rfl
    simp only [find_pivot, bind, hdc]
    cases pyMin (matrix.getLastD []) <;> rfl
  rw [solveLoop_succ, if_pos hneg, hfp]

/-- C2 witness: objective `x1`, single constraint `-x1 ≤ 10`.  The Builder
turns the coefficient table into the initial tableau, and the very first
iteration signals the unbounded failure with the history still holding
exactly that one tableau. -/
theorem c2_witness :
    create_matrices [[-1, 10], [1, 0]] = [[-1, 1, 0, 10], [-1, 0, 1, 0]] ∧
    solveLoop 1 [[-1, 1, 0, 10], [-1, 0, 1, 0]] [[[-1, 1, 0, 10], [-1, 0, 1, 0]]] =
      SolveResult.unbounded [[[-1, 1, 0, 10], [-1, 0, 1, 0]]] ∧
    simplex_solve 1 [[-1, 10], [1, 0]] =
      SolveResult.unbounded [[[-1, 1, 0, 10], [-1, 0, 1, 0]]] ∧
    ([[[-1, 1, 0, 10], [-1, 0, 1, 0]]] : List Mat).length = 1 :=
  ⟨by decide,
    @c2_unbounded_stops [[-1, 1, 0, 10], [-1, 0, 1, 0]]
      [[[-1, 1, 0, 10], [-1, 0, 1, 0]]] 0 (by decide) (by decide),
    by decide, rfl⟩

/-- C3: whenever the pivot search returns a pivot descriptor, the leaving
row is a constraint row (the objective row is excluded), its pivot-column
entry is strictly positive (so a row with entry at most 0 is never
selected), its ratio RHS/entry is minimal among the constraint rows with
strictly positive pivot-column entry, and every such row with a smaller
index has a strictly larger ratio (lowest row index wins ties). -/
theorem c3_min_ratio_leaving_row {matrix : Mat} {pr pc : ℕ} {pv : ℚ}
    (h : find_pivot matrix = some (pr, pc, pv)) :
    pr < matrix.dropLast.length ∧
    0 < (matrix.dropLast.getD pr []).getD pc 0 ∧
    (∀ r, r < matrix.dropLast.length → 0 < (matrix.dropLast.getD r []).getD pc 0 →
      (matrix.dropLast.getD pr []).getLastD 0 / (matrix.dropLast.getD pr []).getD pc 0 ≤
        (matrix.dropLast.getD r []).getLastD 0 / (matrix.dropLast.getD r []).getD pc 0) ∧
    (∀ r, r < pr → 0 < (matrix.dropLast.getD r []).getD pc 0 →
      (matrix.dropLast.getD pr []).getLastD 0 / (matrix.dropLast.getD pr []).getD pc 0 <
        (matrix.dropLast.getD r []).getLastD 0 / (matrix.dropLast.getD r []).getD pc 0) := by
  obtain ⟨h1, h2, _, h4, h5⟩ := find_pivot_spec h
  exact ⟨h1, h2, h4, h5⟩

/-- C3 witness: on the initial tableau of the 2-variable, 2-constraint
scenario the pivot search picks column 1 and row 0 (ratio 40/2 = 20 beats
30/1 = 30), and the guarantees of the theorem hold there. -/
theorem c3_witness :
    find_pivot [[1, 2, 1, 0, 0, 40], [1, 1, 0, 1, 0, 30], [-12, -16, 0, 0, 1, 0]] =
      some (0, 1, 2) ∧
    (0 : ℕ) <
      ([[1, 2, 1, 0, 0, 40], [1, 1, 0, 1, 0, 30], [-12, -16, 0, 0, 1, 0]] : Mat).dropLast.length ∧
    0 < (([[1, 2, 1, 0, 0, 40], [1, 1, 0, 1, 0, 30], [-12, -16, 0, 0, 1, 0]] : Mat).dropLast.getD 0 []).getD 1 0 := by
  have h := @c3_min_ratio_leaving_row
    [[1, 2, 1, 0, 0, 40], [1, 1, 0, 1, 0, 30], [-12, -16, 0, 0, 1, 0]] 0 1 2 (by decide)
  exact ⟨by decide, h.1, h.2.1⟩

/-- C6: after completing one pivot step on a descriptor returned by the
pivot search, the pivot column has exactly one non-zero entry across all
rows: the entry in the pivot row, and it equals 1. -/
theorem c6_pivot_column_cleared {matrix : Mat} {pr pc : ℕ} {pv : ℚ}
    (hfp : find_pivot matrix = some (pr, pc, pv))
    (hpc : pc < (matrix.getD pr []).length) :
    (row_reduce matrix pr pc pv).length = matrix.length ∧
    ∀ r, r < matrix.length →
      ((row_reduce matrix pr pc pv).getD r []).getD pc 0 =
        if r = pr then 1 else 0 := by
  obtain ⟨hprlt, hpos, hpveq, _, _⟩ := find_pivot_spec hfp
  have hldrop : matrix.dropLast.length = matrix.length - 1 :=
    List.length_dropLast matrix
  have hprm : pr < matrix.length := by omega
  have hpveq2 : pv = (matrix.getD pr []).getD pc 0 := by
    rw [hpveq, getD_dropLast hprlt]
  have hpvpos : 0 < pv := by
    rw [hpveq2, ← getD_dropLast hprlt]
    exact hpos
  have hpvne : pv ≠ 0 := ne_of_gt hpvpos
  constructor
  · simp [row_reduce]
  · intro r hr
    have hrr : (row_reduce matrix pr pc pv).getD r [] =
        if r = pr then (matrix.getD pr []).map (fun x => x / pv)
        else updateRow (matrix.getD r []) ((matrix.getD pr []).map (fun x => x / pv))
          ((matrix.getD r []).getD pc 0) := by
      simp only [row_reduce]
      exact getD_range_map _ hr []
    by_cases hcase : r = pr
    · rw [hrr, if_pos hcase, if_pos hcase, getD_map_of_lt _ _ hpc 0 0, ← hpveq2]
      exact div_self hpvne
    · rw [hrr, if_neg hcase, if_neg hcase]
      by_cases hlen : pc < (matrix.getD r []).length
      · simp only [updateRow]
        rw [getD_range_map _ hlen 0, getD_map_of_lt _ _ hpc 0 0, ← hpveq2,
          div_self hpvne]
        ring
      · simp only [updateRow]
        apply List.getD_eq_default
        simpa using Nat.le_of_not_lt hlen

/-- C6 witness: one pivot step on the initial tableau of the 2-variable,
2-constraint scenario, pivot (row 0, column 1, value 2): afterwards column
1 is `[1, 0, 0]` across the three rows. -/
theorem c6_witness :
    (row_reduce [[1, 2, 1, 0, 0, 40], [1, 1, 0, 1, 0, 30], [-12, -16, 0, 0, 1, 0]] 0 1 2).length = 3 ∧
    ∀ r, r < 3 →
      ((row_reduce [[1, 2, 1, 0, 0, 40], [1, 1, 0, 1, 0, 30], [-12, -16, 0, 0, 1, 0]] 0 1 2).getD r []).getD 1 0 =
        if r = 0 then 1 else 0 :=
  c6_pivot_column_cleared (by decide) (by decide)

/-- C8: tableaux already stored in the step history are never changed
afterwards: every run of the solve loop only appends to the history it was
given, and the four navigation operations leave the history untouched. -/
theorem c8_history_immutable :
    (∀ (fuel : ℕ) (matrix : Mat) (hist : List Mat),
      ∃ t, (solveLoop fuel matrix hist).history = hist ++ t) ∧
    (∀ s : SolveState,
      (next_step s).soln_matrices = s.soln_matrices ∧
      (prev_step s).soln_matrices = s.soln_matrices ∧
      (first_step s).soln_matrices = s.soln_matrices ∧
      (last_step s).soln_matrices = s.soln_matrices) := by
  refine ⟨fun fuel matrix hist => solveLoop_extends fuel matrix hist,
    fun s => ⟨?_, ?_, rfl, rfl⟩⟩
  · unfold next_step
    split <;> rfl
  · unfold prev_step
    split <;> rfl

/-- C9: the step navigator is idempotent at the boundaries: prev at cursor
0 is a no-op, next at the last index is a no-op, and next/prev never move
an in-range cursor out of range. -/
theorem c9_navigator_boundaries (s : SolveState) :
    (s.soln_index = 0 → prev_step s = s) ∧
    (s.soln_index = s.soln_matrices.length - 1 → next_step s = s) ∧
    (s.soln_index < s.soln_matrices.length →
      (next_step s).soln_index < s.soln_matrices.length ∧
      (prev_step s).soln_index < s.soln_matrices.length) := by
  refine ⟨?_, ?_, ?_⟩
  · intro h0
    unfold prev_step
    rw [if_neg (by omega)]
  · intro hl
    unfold next_step
    rw [if_neg (by omega)]
  · intro hin
    constructor
    · by_cases hc : s.soln_index + 1 < s.soln_matrices.length
      · unfold next_step
        rw [if_pos hc]
        simpa using hc
      · unfold next_step
        rw [if_neg hc]
        exact hin
    · by_cases hc : 0 < s.soln_index
      · unfold prev_step
        rw [if_pos hc]
        simp only
        omega
      · unfold prev_step
        rw [if_neg hc]
        exact hin

/-- C9 witness: a one-step history with the cursor at 0 (which is also the
last index): prev and next are both no-ops and the cursor stays in range. -/
theorem c9_witness :
    prev_step ⟨[[[1]]], 0⟩ = ⟨[[[1]]], 0⟩ ∧
    next_step ⟨[[[1]]], 0⟩ = ⟨[[[1]]], 0⟩ ∧
    (next_step ⟨[[[1]]], 0⟩).soln_index < 1 ∧
    (prev_step ⟨[[[1]]], 0⟩).soln_index < 1 := by
  obtain ⟨h1, h2, h3⟩ := c9_navigator_boundaries ⟨[[[1]]], 0⟩
  exact ⟨h1 rfl, h2 rfl, (h3 (by decide)).1, (h3 (by decide)).2⟩

/-- C10: whenever the pivot search returns a pivot descriptor, the returned
pivot value is strictly positive, in particular non-zero, so the pivot-row
division of the solve loop never divides by zero. -/
theorem c10_pivot_value_positive {matrix : Mat} {pr pc : ℕ} {pv : ℚ}
    (h : find_pivot matrix = some (pr, pc, pv)) :
    0 < pv ∧ pv ≠ 0 := by
  obtain ⟨_, h2, h3, _, _⟩ := find_pivot_spec h
  exact ⟨h3 ▸ h2, ne_of_gt (h3 ▸ h2)⟩

/-- C10 witness: the pivot descriptor found on the initial tableau of the
2-variable, 2-constraint scenario has value 2, which is positive. -/
theorem c10_witness :
    find_pivot [[1, 2, 1, 0, 0, 40], [1, 1, 0, 1, 0, 30], [-12, -16, 0, 0, 1, 0]] =
      some (0, 1, 2) ∧
    (0 < (2 : ℚ) ∧ (2 : ℚ) ≠ 0) :=
  ⟨by decide,
    @c10_pivot_value_positive
      [[1, 2, 1, 0, 0, 40], [1, 1, 0, 1, 0, 30], [-12, -16, 0, 0, 1, 0]] 0 1 2
      (by decide)⟩

/-- C1 counterexample: on the tableau `[[1,1,0,-10],[0,1,1,-10]]` (reached
after one pivot from the initial tableau for objective `x1` and constraint
`x1 ≤ -10`) the bottom row is `[0, 1, 1, -10]` with RHS column index 3:
every variable/slack entry (columns 0..2) is non-negative, so the claim
says the solver is in the Optimal state; yet the termination test sees the
negative RHS entry and iterates, the pivot column it computes is 3 — the
RHS column itself — and the iteration does not end in the Optimal state. -/
theorem c1_counterexample :
    is_negative [0, 1, 1, -10] = true ∧
    (∀ j, j < 3 → (0 : ℚ) ≤ ([0, 1, 1, -10] : List ℚ).getD j 0) ∧
    pivotColOf [0, 1, 1, -10] = 3 ∧
    solveLoop 1 [[1, 1, 0, -10], [0, 1, 1, -10]] [[[1, 1, 0, -10], [0, 1, 1, -10]]] ≠
      SolveResult.ok [[[1, 1, 0, -10], [0, 1, 1, -10]]] := by decide

/-- C1 (amended): at every solver iteration the whole objective (bottom)
row is examined, the RHS column included: one more iteration returns the
history unchanged in the Optimal state exactly when no entry of the whole
bottom row is negative, and the pivot column is the column holding the
most negative value of the whole bottom row, the lowest column index
winning ties. -/
theorem c1_amended_whole_bottom_row (matrix : Mat) (hist : List Mat) (fuel : ℕ) :
    (solveLoop (fuel + 1) matrix hist = SolveResult.ok hist ↔
      is_negative (matrix.getLastD []) = false) ∧
    (is_negative (matrix.getLastD []) = false ↔
      ∀ v ∈ matrix.getLastD [], 0 ≤ v) ∧
    (∀ (bottom : List ℚ) (m : ℚ), pyMin bottom = some m →
      pivotColOf bottom < bottom.length ∧
      bottom.getD (pivotColOf bottom) 0 = m ∧
      (∀ j, j < bottom.length → m ≤ bottom.getD j 0) ∧
      (∀ j, j < pivotColOf bottom → m < bottom.getD j 0)) := by
  refine ⟨⟨?_, ?_⟩, ?_, ?_⟩
  · intro h
    by_contra hneg
    rw [Bool.not_eq_false] at hneg
    rw [solveLoop_succ, if_pos hneg] at h
    cases hfp : find_pivot matrix with
    | none =>
      rw [hfp] at h
      cases h
    | some p =>
      obtain ⟨pr, pc, pv⟩ := p
      rw [hfp] at h
      have h2 : solveLoop fuel (row_reduce matrix pr pc pv)
          (hist ++ [row_reduce matrix pr pc pv]) = SolveResult.ok hist := h
      obtain ⟨t, ht⟩ := solveLoop_extends fuel (row_reduce matrix pr pc pv)
        (hist ++ [row_reduce matrix pr pc pv])
      rw [h2] at ht
      simp only [SolveResult.history] at ht
      have hlen := congrArg List.length ht
      simp only [List.length_append, List.length_cons, List.length_nil] at hlen
      omega
  · intro h
    have hne : ¬(is_negative (matrix.getLastD []) = true) := by
      rw [h]
      exact Bool.false_ne_true
    rw [solveLoop_succ, if_neg hne]
  · simp [is_negative, List.any_eq_false, not_lt]
  · intro bottom m hm
    have hmem : m ∈ bottom := pyMin_mem hm
    have hcol : pivotColOf bottom = pyIndex bottom m := by
      unfold pivotColOf
      rw [hm]
    refine ⟨?_, ?_, ?_, ?_⟩
    · rw [hcol]
      exact pyIndex_lt_length hmem
    · rw [hcol]
      exact getD_pyIndex hmem 0
    · intro j hj
      exact pyMin_le hm _ (getD_mem hj 0)
    · intro j hj
      have h1 : bottom.getD j 0 ≠ m := by
        rw [hcol] at hj
        exact getD_lt_pyIndex 0 j hj
      have hjlen : j < bottom.length := by
        have h2 : pivotColOf bottom < bottom.length := by
          rw [hcol]
          exact pyIndex_lt_length hmem
        omega
      exact lt_of_le_of_ne (pyMin_le hm _ (getD_mem hjlen 0)) (Ne.symm h1)

/-- C1 witness: a tableau with non-negative bottom row terminates
immediately with the history unchanged, and on the concrete objective row
`[-12, -16, 0, 0, 1, 0]` the computed pivot column is in range and holds
the minimum value -16. -/
theorem c1_witness :
    solveLoop 1 [[1, 0], [0, 1]] [] = SolveResult.ok [] ∧
    pivotColOf [-12, -16, 0, 0, 1, 0] < 6 ∧
    ([-12, -16, 0, 0, 1, 0] : List ℚ).getD (pivotColOf [-12, -16, 0, 0, 1, 0]) 0 = -16 := by
  obtain ⟨h1, _, h3⟩ := c1_amended_whole_bottom_row [[1, 0], [0, 1]] [] 0
  obtain ⟨h4, h5, _, _⟩ := h3 [-12, -16, 0, 0, 1, 0] (-16) (by decide)
  exact ⟨h1.mpr (by decide), h4, h5⟩

/-- C4: for every well-formed coefficient table of `ncons` constraint rows
plus a final objective row, each of `nvars` variable coefficients plus a
final RHS entry, the Builder output equals the tableau described by the
spec: exactly the objective row is negated, and `ncons + 1` unit columns
are inserted immediately before the RHS — slack column `i` holding 1 only
in constraint row `i`, and the final objective-tracking column holding 1
only in the objective row. -/
theorem c4_initial_tableau (T : Mat) (nvars ncons : ℕ)
    (hT : T.length = ncons + 1)
    (hrows : ∀ row ∈ T, row.length = nvars + 1)
    (_hv : 1 ≤ nvars) (_hc : 1 ≤ ncons) :
    create_matrices T = specInitialTableau T nvars ncons := by
  unfold create_matrices specInitialTableau
  rw [hT]
  apply List.map_congr_left
  intro i hi
  have hilt : i < ncons + 1 := List.mem_range.mp hi
  have hrowlen : (T.getD i []).length = nvars + 1 :=
    hrows _ (getD_mem (by omega) [])
  have hbase : (T.getD i []).map
      (fun val => if i + 1 = ncons + 1 then val * (-1) else val) =
      ((T.getD i []).take nvars).map (fun v => if i = ncons then -v else v) ++
        [if i = ncons then -((T.getD i []).getD nvars 0)
          else (T.getD i []).getD nvars 0] := by
    conv_lhs => rw [eq_take_append_getD hrowlen]
    rw [List.map_append]
    congr 1
    · apply List.map_congr_left
      intro a _
      by_cases hic : i = ncons <;> simp [hic, mul_neg_one]
    · simp only [List.map_cons, List.map_nil]
      congr 1
      by_cases hic : i = ncons <;> simp [hic, mul_neg_one]
  simp only [create_row, specRow]
  rw [hT, hbase]
  exact foldl_pyInsertLast (fun j => if j = i then (1 : ℚ) else 0)
    (List.range (ncons + 1)) _ _

/-- C4 witness: the concrete 2-variable, 2-constraint scenario — objective
`12x1 + 16x2`, constraints `x1 + 2x2 ≤ 40` and `x1 + x2 ≤ 30` — yields the
expected initial tableau. -/
theorem c4_witness :
    create_matrices [[1, 2, 40], [1, 1, 30], [12, 16, 0]] =
      specInitialTableau [[1, 2, 40], [1, 1, 30], [12, 16, 0]] 2 2 ∧
    specInitialTableau [[1, 2, 40], [1, 1, 30], [12, 16, 0]] 2 2 =
      [[1, 2, 1, 0, 0, 40], [1, 1, 0, 1, 0, 30], [-12, -16, 0, 0, 1, 0]] :=
  ⟨c4_initial_tableau [[1, 2, 40], [1, 1, 30], [12, 16, 0]] 2 2
      (by decide) (by decide) (by decide) (by decide),
    by decide⟩

/-- C7 counterexample: `create_matrices` performs no validation: on a
coefficient table with inconsistent row lengths it silently produces a
(ragged) tableau instead of signalling any failure. -/
theorem c7_counterexample :
    malformedTable [[1, 2, 40], [1, 30], [12, 16, 0]] = true ∧
    create_matrices [[1, 2, 40], [1, 30], [12, 16, 0]] =
      [[1, 2, 1, 0, 0, 40], [1, 0, 1, 0, 30], [-12, -16, 0, 0, 1, 0]] := by decide

/-- C7 (amended): the Builder never signals anything: for every coefficient
table, malformed or not, `create_matrices` totally produces a tableau with
one output row per input row, each input row extended by one inserted
value per input row. -/
theorem c7_no_validation (T : Mat) :
    (create_matrices T).length = T.length ∧
    ∀ i, i < T.length →
      ((create_matrices T).getD i []).length = (T.getD i []).length + T.length := by
  constructor
  · simp [create_matrices]
  · intro i hi
    have h1 : (create_matrices T).getD i [] = create_row T i := by
      simp only [create_matrices]
      exact getD_range_map _ hi []
    rw [h1]
    simp only [create_row]
    have h2 : ∀ (js : List ℕ) (acc : List ℚ),
        (js.foldl (fun acc2 k => pyInsertLast acc2 (if k = i then 1 else 0)) acc).length =
          acc.length + js.length := by
      intro js
      induction js with
      | nil => intro acc; simp
      | cons j js ih =>
        intro acc
        simp only [List.foldl_cons]
        rw [ih, pyInsertLast_length, List.length_cons]
        omega
    rw [h2]
    simp

/-- C7 witness: on a well-formed malformedness-free 3-row table the Builder
produces 3 rows and extends the first row from 3 to 6 entries. -/
theorem c7_witness :
    (create_matrices [[1, 2, 40], [1, 1, 30], [12, 16, 0]]).length = 3 ∧
    ((create_matrices [[1, 2, 40], [1, 1, 30], [12, 16, 0]]).getD 0 []).length = 3 + 3 := by
  obtain ⟨h1, h2⟩ := c7_no_validation [[1, 2, 40], [1, 1, 30], [12, 16, 0]]
  exact ⟨h1, h2 0 (by decide)⟩

end SimplexSolve
